import Mathlib

/-!
Verification of the `rustcomp` comprehension-expansion engine (`rcomp!` in
`src/lib.rs`) against its specification.

The development has two layers, both translated from the macro in
`src/lib.rs`:

* a *semantic* layer (`Chain`, `expand`): the pipeline that the macro's two
  internal rules expand to — the base rule
  `iter.into_iter().filter_map(|vars| if guard && true { Some(mapper) } else { None })`
  and the recursive rule
  `iter.into_iter().flat_map(|vars| rcomp!(@__ rest))` —
  modelled over Lean lists with guards/mappers as Lean functions;

* a *syntactic* layer (`Tok`, `rcomp`): the macro's rule matching itself,
  with patterns, expressions and collection-type paths as opaque numbered
  tokens, reproducing the four `macro_rules!` arms of `rcomp!` in order.
-/

namespace Rustcomp

/-! ## Semantic layer: the expanded pipeline -/

/-- A clause chain as the macro sees it: the base case carries the optional
guard and the mapper (innermost `filter_map` step), the recursive case carries
the function from the current binding to the next clause's source
(`flat_map` step).  The binding type changes at each nesting level, so the
chain is indexed by the element type it consumes; the inner source may depend
on the outer binding, as the nested closures in the expansion do. -/
inductive Chain (β : Type) : Type → Type 1 where
  | base : {α : Type} → (guard : Option (α → Bool)) → (mapper : α → β) → Chain β α
  | cons : {α γ : Type} → (source : α → List γ) → Chain β γ → Chain β α

/-- The guard test of the base rule: the macro emits `if $guard && true`
when a guard is present and `if true` when it is absent
(`src/lib.rs:234`, the `&& true` trick). -/
def guardTest {α : Type} : Option (α → Bool) → α → Bool
  | some g, x => g x && true
  | none, _ => true

/-- `expand` is the composed pipeline the macro expands to:
the base rule is `filter_map` (yield the mapped value only when the guard
holds), the recursive rule is `flat_map` (`src/lib.rs:229-245`). -/
def expand {β : Type} : {α : Type} → Chain β α → List α → List β
  | _, .base g m, S =>
      S.filterMap (fun x => if guardTest g x then some (m x) else none)
  | _, .cons src rest, S =>
      S.flatMap (fun x => expand rest (src x))

/-- Reference semantics written from the spec's words: explicit nested-loop
traversal, outer-major, appending each inner pass's output in source order
(§4.2 "matches nested-loop iteration order exactly"). -/
def nestedLoop {β : Type} : {α : Type} → Chain β α → List α → List β
  | _, _, [] => []
  | _, .base g m, x :: xs =>
      (if guardTest g x then [m x] else []) ++ nestedLoop (.base g m) xs
  | _, .cons src rest, x :: xs =>
      nestedLoop rest (src x) ++ nestedLoop (.cons src rest) xs

lemma guardTest_some {α : Type} (g : α → Bool) (x : α) :
    guardTest (some g) x = g x := Bool.and_true _

lemma expand_base_eq_nestedLoop {α β : Type} (g : Option (α → Bool))
    (m : α → β) (S : List α) :
    expand (.base g m) S = nestedLoop (.base g m) S := by
  induction S with
  | nil => simp [expand, nestedLoop]
  | cons x xs ih =>
      simp only [expand, List.filterMap_cons, nestedLoop] at *
      by_cases h : guardTest g x = true
      · simp [h, ih]
      · simp only [Bool.not_eq_true] at h
        simp [h, ih]

lemma expand_eq_nestedLoop {β : Type} :
    {α : Type} → (c : Chain β α) → (S : List α) →
    expand c S = nestedLoop c S
  | _, .base g m, S => expand_base_eq_nestedLoop g m S
  | _, .cons src rest, S => by
      induction S with
      | nil => simp [expand, nestedLoop]
      | cons x xs ih =>
          simp only [expand, List.flatMap_cons, nestedLoop] at *
          rw [ih, expand_eq_nestedLoop rest (src x)]

lemma expand_base_guard_eq_filter_map {α β : Type} (g : α → Bool)
    (m : α → β) (S : List α) :
    expand (.base (some g) m) S = (S.filter g).map m := by
  induction S with
  | nil => rfl
  | cons x xs ih =>
      simp only [expand, guardTest_some, List.filterMap_cons,
        List.filter_cons] at *
      by_cases h : g x = true
      · simp [h, ih]
      · simp only [Bool.not_eq_true] at h
        simp [h, ih]

lemma expand_base_id {α : Type} (S : List α) :
    expand (.base none (fun x => x)) S = S := by
  induction S with
  | nil => rfl
  | cons x xs ih =>
      simp only [expand, guardTest, List.filterMap_cons] at *
      simp [ih]

/-! ## Semantic layer with fallible guard/mapper/source expressions

The macro substitutes host expressions verbatim; a guard or mapper may raise
when evaluated.  Fallible code is modelled with `Option`: `none` is a raised
error, propagated outward, and evaluation follows the lazy pipeline's element
order — per element, the guard is evaluated first, the mapper only when the
guard returned `true`. -/

/-- A clause chain whose guard, mapper and inner sources may raise
(`none`) when evaluated. -/
inductive ChainE (β : Type) : Type → Type 1 where
  | base : {α : Type} → (guard : Option (α → Option Bool)) →
      (mapper : α → Option β) → ChainE β α
  | cons : {α γ : Type} → (source : α → Option (List γ)) →
      ChainE β γ → ChainE β α

/-- The guard evaluation of the base rule with a fallible guard: absent
guard is `true` (the `&& true` trick), present guard is evaluated and may
raise. -/
def guardEval {α : Type} : Option (α → Option Bool) → α → Option Bool
  | some g, x => (g x).map (· && true)
  | none, _ => some true

/-- `expand` over fallible expressions: same `filter_map` / `flat_map`
pipeline as `expand`, with a raised error (`none`) propagated outward.
Expressions are evaluated in pipeline order: elements in source order, and
per element the guard strictly before the mapper. -/
def expandE {β : Type} : {α : Type} → ChainE β α → List α → Option (List β)
  | _, _, [] => some []
  | _, .base g m, x :: xs => do
      let b ← guardEval g x
      if b then do
        let y ← m x
        let rest ← expandE (.base g m) xs
        pure (y :: rest)
      else
        expandE (.base g m) xs
  | _, .cons src rest, x :: xs => do
      let inner ← src x
      let ys ← expandE rest inner
      let zs ← expandE (.cons src rest) xs
      pure (ys ++ zs)

/-- On an empty outermost source the pipeline yields `some []` whatever the
guard, mapper and inner sources are — none of them is ever evaluated. -/
lemma expandE_nil {α β : Type} (c : ChainE β α) : expandE c [] = some [] := by
  cases c <;> simp [expandE]

/-- Sanity link: when every expression is total, `expandE` agrees with
`expand`. -/
lemma expandE_of_total {β : Type} :
    {α : Type} → (g? : Option (α → Bool)) → (m : α → β) → (S : List α) →
    expandE (.base (g?.map (fun g x => some (g x))) (fun x => some (m x))) S
      = some (expand (.base g? m) S) := by
  intro α g? m S
  cases g? with
  | none =>
      induction S with
      | nil => simp [expandE, expand]
      | cons x xs ih =>
          simp only [Option.map_none', expandE, guardEval, expand,
            guardTest, List.filterMap_cons, if_true] at *
          simp [ih]
  | some g =>
      induction S with
      | nil => simp [expandE, expand]
      | cons x xs ih =>
          simp only [Option.map_some', expandE, guardEval, expand,
            guardTest_some, List.filterMap_cons] at *
          by_cases h : g x = true
          · simp [h, ih]
          · simp only [Bool.not_eq_true] at h
            simp [h, ih]

/-! ## Syntactic layer: the macro's rule matching

`rcomp!` is four `macro_rules` arms tried in order.  Patterns (`$vars:pat`),
expressions (`$iter:expr`, `$mapper:expr`, `$guard:expr`) and collection-type
paths (`$collect:path`) are opaque fragments, modelled as numbered tokens;
the surrounding literal tokens (`for`, `in`, `if`, `=>`, `,`, `;`) are
modelled one-to-one.  `none` is a failure to match any rule (a macro
expansion error). -/

/-- One token of the macro's input.  Opaque fragments carry a number so that
distinct source patterns/expressions stay distinct. -/
inductive Tok where
  | kwFor | kwIn | kwIf | arrow | comma | semi
  | pat (n : Nat)
  | expr (n : Nat)
  | path (n : Nat)
  deriving DecidableEq, Repr

/-- The expansion produced by the two internal (`@__`) rules: the base rule
emits a `filter_map` step, the recursive rule emits a `flat_map` step whose
body is the expansion of the remaining tokens (`src/lib.rs:229-245`). -/
inductive MacExp where
  | filterMap (vars : List Nat) (iter : Nat) (mapper : Nat) (guard : Option Nat)
  | flatMap (vars : List Nat) (iter : Nat) (body : MacExp)
  deriving DecidableEq, Repr

/-- The expansion produced by the two dispatch rules: `for ...` yields the
iterator itself, `path ; ...` appends `.collect::<path>()`
(`src/lib.rs:249-255`). -/
inductive MacOut where
  | iter (e : MacExp)
  | collected (ty : Nat) (o : MacOut)
  deriving DecidableEq, Repr

/-- `$($vars:pat),+` followed by `in`: one or more patterns separated by
commas; the repetition continues exactly while a comma is followed by the
next pattern. -/
def parseVars : List Tok → Option (List Nat × List Tok)
  | Tok.pat p :: Tok.comma :: rest =>
      (parseVars rest).map (fun r => (p :: r.1, r.2))
  | Tok.pat p :: rest => some ([p], rest)
  | _ => none

/-- The base (`@__`) rule:
`$($vars:pat),+ in $iter:expr => $mapper:expr $(, if $guard:expr)? $(,)?`.
The whole input must be consumed; the guard group and the trailing comma are
optional. -/
def ruleBase (ts : List Tok) : Option MacExp :=
  match parseVars ts with
  | some (vs, Tok.kwIn :: Tok.expr i :: Tok.arrow :: Tok.expr m :: rest) =>
      match rest with
      | [] => some (.filterMap vs i m none)
      | [Tok.comma] => some (.filterMap vs i m none)
      | [Tok.comma, Tok.kwIf, Tok.expr g] => some (.filterMap vs i m (some g))
      | [Tok.comma, Tok.kwIf, Tok.expr g, Tok.comma] =>
          some (.filterMap vs i m (some g))
      | _ => none
  | _ => none

/-- The two internal rules in their source order: the base rule is tried
first; otherwise the recursive rule
`$($vars:pat),+ in $iter:expr, $($recurse:tt)+` matches a comma right after
the iterator expression and re-enters the macro on the remaining tokens.
Recursion is fuelled; each recursive step consumes at least four tokens, so
the input length is always enough fuel. -/
def rcompInnerF : Nat → List Tok → Option MacExp
  | 0, _ => none
  | fuel + 1, ts =>
      match ruleBase ts with
      | some e => some e
      | none =>
          match parseVars ts with
          | some (vs, Tok.kwIn :: Tok.expr i :: Tok.comma :: rest) =>
              (rcompInnerF fuel rest).map (.flatMap vs i)
          | _ => none

/-- The internal (`@__`) matcher with its fuel instantiated. -/
def rcompInner (ts : List Tok) : Option MacExp :=
  rcompInnerF ts.length ts

/-- The macro's entry point: the `for`-dispatch rule strips the leading
`for` and matches the internal rules; the collect rule strips a leading
`$collect:path ;`, recurses, and appends the collect step.  (The two rules
are tried in this order in the source; their head tokens are disjoint.) -/
def rcomp : List Tok → Option MacOut
  | Tok.kwFor :: rest => (rcompInner rest).map .iter
  | Tok.path c :: Tok.semi :: rest => (rcomp rest).map (.collected c)
  | _ => none

/-! ### Well-formed comprehension inputs

A family of token lists covering every input of the shape the macro's
documentation gives
(`rcomp!([collect_ty;] for <pattern> in <iterator>, ... => <mapper>[, if <guard>])`),
with arbitrary clause count, pattern counts, optional guard and optional
trailing comma, and the expansion each one produces. -/

/-- One generator clause: a nonempty pattern list (`$($vars:pat),+`) and an
iterator expression. -/
structure ClauseT where
  v0 : Nat
  vrest : List Nat
  iter : Nat

/-- The clause's pattern list (nonempty by construction). -/
def ClauseT.vars (c : ClauseT) : List Nat := c.v0 :: c.vrest

/-- Tokens of a comma-separated pattern list. -/
def varsToks : List Nat → List Tok
  | [] => []
  | [v] => [Tok.pat v]
  | v :: vs => Tok.pat v :: Tok.comma :: varsToks vs

/-- Tokens of the tail `=> mapper [, if guard] [,]`. -/
def tailToks (m : Nat) (g : Option Nat) (tr : Bool) : List Tok :=
  Tok.arrow :: Tok.expr m ::
    ((match g with
      | some gg => [Tok.comma, Tok.kwIf, Tok.expr gg]
      | none => [])
      ++ (if tr then [Tok.comma] else []))

/-- Tokens of a clause chain `p₀ in e₀, p₁ in e₁, ... => m [, if g] [,]`
(clauses separated by commas, as in the source). -/
def chainToks : ClauseT → List ClauseT → Nat → Option Nat → Bool → List Tok
  | c, [], m, g, tr =>
      varsToks c.vars ++ Tok.kwIn :: Tok.expr c.iter :: tailToks m g tr
  | c, c2 :: cs, m, g, tr =>
      varsToks c.vars ++ Tok.kwIn :: Tok.expr c.iter :: Tok.comma ::
        chainToks c2 cs m g tr

/-- The expansion the macro produces for such a chain: `flat_map` steps for
every clause but the last, a `filter_map` step carrying the mapper and guard
for the last. -/
def expOf : ClauseT → List ClauseT → Nat → Option Nat → MacExp
  | c, [], m, g => .filterMap c.vars c.iter m g
  | c, c2 :: cs, m, g => .flatMap c.vars c.iter (expOf c2 cs m g)

lemma varsToks_length (v : Nat) (vs : List Nat) :
    (varsToks (v :: vs)).length = 2 * vs.length + 1 := by
  induction vs generalizing v with
  | nil => rfl
  | cons w ws ih => simp [varsToks, ih w]; omega

lemma parseVars_varsToks (vs : List Nat) (v : Nat) (r : List Tok) :
    parseVars (varsToks (v :: vs) ++ Tok.kwIn :: r)
      = some (v :: vs, Tok.kwIn :: r) := by
  induction vs generalizing v with
  | nil => rfl
  | cons w ws ih =>
      simp only [varsToks, List.cons_append, parseVars, List.append_eq,
        ih w, Option.map_some']

lemma parseVars_chainToks_cons (c c2 : ClauseT) (cs : List ClauseT)
    (m : Nat) (g : Option Nat) (tr : Bool) :
    parseVars (chainToks c (c2 :: cs) m g tr)
      = some (c.vars, Tok.kwIn :: Tok.expr c.iter :: Tok.comma ::
          chainToks c2 cs m g tr) :=
  parseVars_varsToks c.vrest c.v0 _

lemma ruleBase_chainToks_nil (c : ClauseT) (m : Nat) (g : Option Nat)
    (tr : Bool) :
    ruleBase (chainToks c [] m g tr)
      = some (.filterMap c.vars c.iter m g) := by
  have hp : parseVars (chainToks c [] m g tr)
      = some (c.vars, Tok.kwIn :: Tok.expr c.iter :: tailToks m g tr) :=
    parseVars_varsToks c.vrest c.v0 _
  cases g <;> cases tr <;>
    simp [ruleBase, hp, tailToks]

lemma ruleBase_chainToks_cons (c c2 : ClauseT) (cs : List ClauseT)
    (m : Nat) (g : Option Nat) (tr : Bool) :
    ruleBase (chainToks c (c2 :: cs) m g tr) = none := by
  simp [ruleBase, parseVars_chainToks_cons]

lemma chainToks_length_pos (c : ClauseT) (cs : List ClauseT) (m : Nat)
    (g : Option Nat) (tr : Bool) :
    0 < (chainToks c cs m g tr).length := by
  cases cs <;>
    simp [chainToks, ClauseT.vars, varsToks_length]

lemma rcompInnerF_chainToks :
    (cs : List ClauseT) → (c : ClauseT) → (m : Nat) → (g : Option Nat) →
    (tr : Bool) → (fuel : Nat) →
    (chainToks c cs m g tr).length ≤ fuel →
    rcompInnerF fuel (chainToks c cs m g tr) = some (expOf c cs m g) := by
  intro cs
  induction cs with
  | nil =>
      intro c m g tr fuel hf
      cases fuel with
      | zero =>
          exact absurd hf (by simpa using (chainToks_length_pos c [] m g tr).ne')
      | succ f =>
          simp [rcompInnerF, ruleBase_chainToks_nil, expOf]
  | cons c2 cs ih =>
      intro c m g tr fuel hf
      cases fuel with
      | zero =>
          exact absurd hf
            (by simpa using (chainToks_length_pos c (c2 :: cs) m g tr).ne')
      | succ f =>
          have h1 : (chainToks c (c2 :: cs) m g tr).length
              = 2 * c.vrest.length + 4 + (chainToks c2 cs m g tr).length := by
            simp [chainToks, ClauseT.vars, varsToks_length]
            omega
          have hrest : (chainToks c2 cs m g tr).length ≤ f := by omega
          simp only [rcompInnerF, ruleBase_chainToks_cons,
            parseVars_chainToks_cons]
          simp [ih c2 m g tr f hrest, expOf]

/-- Internal matcher applied to any well-formed chain: the expansion is
`expOf`, independent of the trailing comma. -/
lemma rcompInner_chainToks (c : ClauseT) (cs : List ClauseT) (m : Nat)
    (g : Option Nat) (tr : Bool) :
    rcompInner (chainToks c cs m g tr) = some (expOf c cs m g) :=
  rcompInnerF_chainToks cs c m g tr _ le_rfl

/-! ## Materializer: host-library collection semantics

The collect rule (`src/lib.rs:252-255`) only appends
`.collect::<$collect>()`; what collecting does is the host standard
library's `FromIterator`, outside this repository.  The three container
behaviours are modelled from the spec (§4.3), faithful to the Rust
containers the examples use (`Vec`, `HashSet`, `HashMap`): each starts
empty and inserts the drained elements in pipeline order. -/

/-- Modelled from the spec: `Sequence` materialization (`Vec` in the
examples) — drain into an insertion-ordered container, duplicates
retained. -/
def collectSeq {α : Type} (l : List α) : List α :=
  l.foldl (fun acc x => acc ++ [x]) []

/-- Modelled from the spec: one `Set` insertion — a duplicate element
collapses silently, a new element is appended. -/
def hsInsert {α : Type} [DecidableEq α] (s : List α) (x : α) : List α :=
  if x ∈ s then s else s ++ [x]

/-- Modelled from the spec: `Set` materialization (`HashSet` in the
examples) — drain into a uniqueness-guaranteeing container. -/
def collectSet {α : Type} [DecidableEq α] (l : List α) : List α :=
  l.foldl hsInsert []

/-- Modelled from the spec: one `Mapping` insertion — the new value
overwrites any earlier value for the same key.  The mapping is observed
through lookup, so it is modelled as its lookup function. -/
def hmInsert {κ ν : Type} [DecidableEq κ] (f : κ → Option ν) (k : κ)
    (v : ν) : κ → Option ν :=
  fun q => if q = k then some v else f q

/-- Modelled from the spec: `Mapping` materialization (`HashMap` in the
examples) — drain the `(key, value)` pairs into a key-unique associative
container, inserting in pipeline order. -/
def collectMapping {κ ν : Type} [DecidableEq κ] (l : List (κ × ν)) :
    κ → Option ν :=
  l.foldl (fun f p => hmInsert f p.1 p.2) (fun _ => none)

lemma collectSeq_aux {α : Type} (l acc : List α) :
    l.foldl (fun acc x => acc ++ [x]) acc = acc ++ l := by
  induction l generalizing acc with
  | nil => simp
  | cons x xs ih => simp [List.foldl_cons, ih]

/-- Draining into a `Sequence` is the identity on the element list. -/
lemma collectSeq_eq {α : Type} (l : List α) : collectSeq l = l := by
  simpa using collectSeq_aux l []

lemma mem_hsInsert {α : Type} [DecidableEq α] (s : List α) (x y : α) :
    y ∈ hsInsert s x ↔ y ∈ s ∨ y = x := by
  by_cases h : x ∈ s
  · simp only [hsInsert, if_pos h]
    constructor
    · exact Or.inl
    · rintro (hy | rfl) <;> [exact hy; exact h]
  · simp [hsInsert, if_neg h]

lemma hsInsert_nodup {α : Type} [DecidableEq α] (s : List α) (x : α)
    (h : s.Nodup) : (hsInsert s x).Nodup := by
  by_cases hx : x ∈ s
  · simpa [hsInsert, if_pos hx] using h
  · simp [hsInsert, if_neg hx, List.nodup_append, h, hx]

lemma mem_collectSet_aux {α : Type} [DecidableEq α] (l s : List α) (y : α) :
    y ∈ l.foldl hsInsert s ↔ y ∈ s ∨ y ∈ l := by
  induction l generalizing s with
  | nil => simp
  | cons x xs ih =>
      simp only [List.foldl_cons, ih, mem_hsInsert, List.mem_cons]
      tauto

lemma nodup_collectSet_aux {α : Type} [DecidableEq α] (l : List α) :
    ∀ s : List α, s.Nodup → (l.foldl hsInsert s).Nodup := by
  induction l with
  | nil => exact fun s hs => hs
  | cons x xs ih =>
      exact fun s hs => ih (hsInsert s x) (hsInsert_nodup s x hs)

/-- `Set` materialization: membership is membership in the drained list. -/
lemma mem_collectSet {α : Type} [DecidableEq α] (l : List α) (y : α) :
    y ∈ collectSet l ↔ y ∈ l := by
  simp [collectSet, mem_collectSet_aux]

/-- `Set` materialization contains no duplicates. -/
lemma nodup_collectSet {α : Type} [DecidableEq α] (l : List α) :
    (collectSet l).Nodup :=
  nodup_collectSet_aux l [] List.nodup_nil

lemma hmFold_no_key {κ ν : Type} [DecidableEq κ] (l : List (κ × ν)) :
    ∀ (f : κ → Option ν) (k : κ), (∀ p ∈ l, p.1 ≠ k) →
    (l.foldl (fun f p => hmInsert f p.1 p.2) f) k = f k := by
  induction l with
  | nil => exact fun f k _ => rfl
  | cons p ps ih =>
      intro f k hk
      simp only [List.foldl_cons]
      rw [ih _ k (fun q hq => hk q (List.mem_cons_of_mem p hq))]
      have hp : p.1 ≠ k := hk p (List.mem_cons_self p ps)
      simp [hmInsert, Ne.symm hp]

/-- `Mapping` materialization is last-write-wins: the value looked up for a
key is the value of the last pair produced with that key. -/
lemma collectMapping_last {κ ν : Type} [DecidableEq κ] (l1 l2 : List (κ × ν))
    (k : κ) (v : ν) (h : ∀ p ∈ l2, p.1 ≠ k) :
    collectMapping (l1 ++ (k, v) :: l2) k = some v := by
  unfold collectMapping
  rw [List.foldl_append, List.foldl_cons, hmFold_no_key l2 _ k h]
  simp [hmInsert]

/-- A key never produced by the pipeline is absent from the `Mapping`. -/
lemma collectMapping_none {κ ν : Type} [DecidableEq κ] (l : List (κ × ν))
    (k : κ) (h : ∀ p ∈ l, p.1 ≠ k) : collectMapping l k = none :=
  hmFold_no_key l _ k h

/-! ## The claims -/

/-- C1: a comprehension with guard `g` and mapper `m` over source `S`
equals `map(m, filter(g, S))` — the guard is evaluated on the input element
before the mapper, and the mapped value is produced only when no guard is
present or the guard is true; concretely, source `[1,2,3,4]`, guard "even",
mapper "×2" gives `[4, 8]`, which differs from `filter(g, map(m, S))` at
this input. -/
theorem claim_C1_filter_before_map :
    (∀ (α β : Type) (S : List α) (g : α → Bool) (m : α → β),
        expand (.base (some g) m) S = (S.filter g).map m)
    ∧ expand (.base (some (fun x => x % 2 == 0)) (fun x => x * 2))
        [1, 2, 3, 4] = [4, 8]
    ∧ expand (.base (some (fun x => x % 2 == 0)) (fun x => x * 2))
        [1, 2, 3, 4]
      ≠ (([1, 2, 3, 4].map (fun x => x * 2)).filter (fun x => x % 2 == 0)) :=
  ⟨fun _ _ S g m => expand_base_guard_eq_filter_map g m S, by decide, by decide⟩

/-- C2: the expansion equals explicit nested-loop traversal for every
clause chain — outer clause's source order is the primary key, inner
clauses' source order the next keys; concretely, over
`[[1,2,3],[4,5,6],[7,8,9]]` with inner guard "even" and identity mapper,
the result is `[2, 4, 6, 8]` in that order. -/
theorem claim_C2_flatten_order :
    (∀ (α β : Type) (c : Chain β α) (S : List α),
        expand c S = nestedLoop c S)
    ∧ expand (.cons (fun row => row)
        (.base (some (fun c => c % 2 == 0)) (fun c => c)))
        [[1, 2, 3], [4, 5, 6], [7, 8, 9]] = [2, 4, 6, 8] :=
  ⟨fun _ _ c S => expand_eq_nestedLoop c S, by decide⟩

/-- C3: a single-clause comprehension with no guard and the identity mapper
returns the source sequence exactly. -/
theorem claim_C3_identity :
    ∀ (α : Type) (S : List α), expand (.base none (fun x => x)) S = S :=
  fun _ S => expand_base_id S

/-- C4 counterexample: pairing a single-expression mapper with a Mapping
collection type does not fail — the `HashMap` example of `src/lib.rs:210`
(`rcomp![HashMap<_, _>; for i in 0..10 => (i, i * i)]`, a one-expression
tuple mapper) expands successfully, contradicting the claim that such a
comprehension fails with `UnsupportedContainerMapperArity`. -/
theorem claim_C4_counterexample :
    rcomp [Tok.path 0, Tok.semi, Tok.kwFor, Tok.pat 0, Tok.kwIn, Tok.expr 0,
      Tok.arrow, Tok.expr 1]
      = some (.collected 0 (.iter (.filterMap [0] 0 1 none))) := rfl

/-- C4 amended: a two-expression `=> k, v` mapper matches no macro rule and
expansion fails — with or without a collection type, whatever it is — so an
element is never silently pair-wrapped; there is no dedicated arity error
value, and a single-expression mapper with any collection type (Mapping
included) succeeds, the key/value pair being written as one tuple
expression. -/
theorem claim_C4_amended_no_two_expr_mapper :
    (∀ (p e k v : Nat),
        rcomp [Tok.kwFor, Tok.pat p, Tok.kwIn, Tok.expr e, Tok.arrow,
          Tok.expr k, Tok.comma, Tok.expr v] = none)
    ∧ (∀ (T p e k v : Nat),
        rcomp [Tok.path T, Tok.semi, Tok.kwFor, Tok.pat p, Tok.kwIn,
          Tok.expr e, Tok.arrow, Tok.expr k, Tok.comma, Tok.expr v] = none)
    ∧ (∀ (T p e m : Nat),
        rcomp [Tok.path T, Tok.semi, Tok.kwFor, Tok.pat p, Tok.kwIn,
          Tok.expr e, Tok.arrow, Tok.expr m]
          = some (.collected T (.iter (.filterMap [p] e m none)))) :=
  ⟨fun _ _ _ _ => rfl, fun _ _ _ _ _ => rfl, fun _ _ _ _ => rfl⟩

/-- C5: Mapping materialization is last-write-wins — the value held for a
key is the value of the last-produced pair with that key, and keys never
produced are absent; concretely,
`[("a",1), ("a",2), ("b",3)]` collects to `{"a": 2, "b": 3}`. -/
theorem claim_C5_mapping_last_write_wins :
    (∀ (κ ν : Type) [DecidableEq κ] (l1 l2 : List (κ × ν)) (k : κ) (v : ν),
        (∀ p ∈ l2, p.1 ≠ k) →
        collectMapping (l1 ++ (k, v) :: l2) k = some v)
    ∧ collectMapping [("a", 1), ("a", 2), ("b", 3)] "a" = some 2
    ∧ collectMapping [("a", 1), ("a", 2), ("b", 3)] "b" = some 3
    ∧ (∀ k : String, k ≠ "a" → k ≠ "b" →
        collectMapping [("a", 1), ("a", 2), ("b", 3)] k = none) :=
  ⟨fun _ _ _ l1 l2 k v h => collectMapping_last l1 l2 k v h,
   by decide, by decide,
   fun k ha hb => collectMapping_none _ k (by
     intro p hp
     simp only [List.mem_cons, List.not_mem_nil, or_false] at hp
     rcases hp with rfl | rfl | rfl
     · exact fun h => ha h.symm
     · exact fun h => ha h.symm
     · exact fun h => hb h.symm)⟩

/-- C5 witness: the general last-write-wins statement applied at the
concrete duplicate-key input, and absence applied at a key never
produced. -/
theorem claim_C5_witness :
    collectMapping ([("a", 1)] ++ ("a", 2) :: [("b", 3)]) "a" = some 2
    ∧ collectMapping [("a", 1), ("a", 2), ("b", 3)] "c" = none :=
  ⟨claim_C5_mapping_last_write_wins.1 String Nat [("a", 1)] [("b", 3)] "a" 2
      (by decide),
   claim_C5_mapping_last_write_wins.2.2.2 "c" (by decide) (by decide)⟩

/-- C6: Set materialization contains each produced element exactly once —
membership equals membership in the drained element list and the result has
no duplicates; concretely, `[1,1,2,2,3]` collects to exactly `{1, 2, 3}`,
each with multiplicity one. -/
theorem claim_C6_set_uniqueness :
    (∀ (α : Type) [DecidableEq α] (l : List α),
        (collectSet l).Nodup ∧ ∀ y, y ∈ collectSet l ↔ y ∈ l)
    ∧ (∀ y : Nat, y ∈ collectSet [1, 1, 2, 2, 3] ↔ y ∈ [1, 2, 3])
    ∧ (collectSet [1, 1, 2, 2, 3]).count 1 = 1
    ∧ (collectSet [1, 1, 2, 2, 3]).count 2 = 1
    ∧ (collectSet [1, 1, 2, 2, 3]).count 3 = 1 :=
  ⟨fun _ _ l => ⟨nodup_collectSet l, fun y => mem_collectSet l y⟩,
   fun _ => Iff.rfl, by decide, by decide, by decide⟩

/-- C7: with an empty outermost source the pipeline yields an empty result
and evaluates neither guard nor mapper nor any inner source — even
always-raising guard and mapper expressions (modelled as `none`-returning
functions) raise nothing. -/
theorem claim_C7_empty_source_short_circuit :
    (∀ (α β : Type) (c : ChainE β α), expandE c [] = some [])
    ∧ expandE (ChainE.base (some (fun _ => none)) (fun _ => none))
        ([] : List Nat) = some ([] : List Nat)
    ∧ expandE (ChainE.cons (fun _ => none)
        (ChainE.base (some (fun _ : Nat => none)) (fun _ => (none : Option Nat))))
        ([] : List Nat) = some [] :=
  ⟨fun _ _ c => expandE_nil c, expandE_nil _, expandE_nil _⟩

/-- C8 counterexample: chained clauses separated by `;` (with or without a
repeated `for`) match no macro rule and expansion fails, while the same
chain separated by `,` expands to the `flat_map`/`filter_map` pipeline — so
the two separator conventions are not both recognized. -/
theorem claim_C8_counterexample :
    rcomp [Tok.kwFor, Tok.pat 0, Tok.kwIn, Tok.expr 0, Tok.semi,
      Tok.pat 1, Tok.kwIn, Tok.expr 1, Tok.arrow, Tok.expr 2] = none
    ∧ rcomp [Tok.kwFor, Tok.pat 0, Tok.kwIn, Tok.expr 0, Tok.semi,
        Tok.kwFor, Tok.pat 1, Tok.kwIn, Tok.expr 1, Tok.arrow, Tok.expr 2]
        = none
    ∧ rcomp [Tok.kwFor, Tok.pat 0, Tok.kwIn, Tok.expr 0, Tok.comma,
        Tok.pat 1, Tok.kwIn, Tok.expr 1, Tok.arrow, Tok.expr 2]
        = some (.iter (.flatMap [0] 0 (.filterMap [1] 1 2 none))) :=
  ⟨rfl, rfl, rfl⟩

/-- C8 amended: only `,` is recognized between consecutive generator
clauses; a `;` between clauses matches no rule and expansion fails (`;`
only separates the optional leading collection type from the chain). -/
theorem claim_C8_amended_comma_only :
    (∀ (p1 e1 p2 e2 m : Nat),
        rcomp [Tok.kwFor, Tok.pat p1, Tok.kwIn, Tok.expr e1, Tok.comma,
          Tok.pat p2, Tok.kwIn, Tok.expr e2, Tok.arrow, Tok.expr m]
          = some (.iter (.flatMap [p1] e1 (.filterMap [p2] e2 m none))))
    ∧ (∀ (p1 e1 p2 e2 m : Nat),
        rcomp [Tok.kwFor, Tok.pat p1, Tok.kwIn, Tok.expr e1, Tok.semi,
          Tok.pat p2, Tok.kwIn, Tok.expr e2, Tok.arrow, Tok.expr m]
          = none) :=
  ⟨fun _ _ _ _ _ => rfl, fun _ _ _ _ _ => rfl⟩

/-- C9: without a collection-type annotation the macro returns the composed
pipeline itself with no collect step appended (the Lazy form), the
annotated form appends exactly a collect step around the same expansion,
and draining into a Sequence preserves the element list — so draining the
lazy result equals the eagerly materialized Sequence form. -/
theorem claim_C9_lazy_default :
    (∀ (c : ClauseT) (cs : List ClauseT) (m : Nat) (g : Option Nat)
        (tr : Bool),
        rcomp (Tok.kwFor :: chainToks c cs m g tr)
          = some (.iter (expOf c cs m g)))
    ∧ (∀ (T : Nat) (c : ClauseT) (cs : List ClauseT) (m : Nat)
        (g : Option Nat) (tr : Bool),
        rcomp (Tok.path T :: Tok.semi :: Tok.kwFor :: chainToks c cs m g tr)
          = some (.collected T (.iter (expOf c cs m g))))
    ∧ (∀ (α : Type) (l : List α), collectSeq l = l) :=
  ⟨fun c cs m g tr => by simp [rcomp, rcompInner_chainToks c cs m g tr],
   fun T c cs m g tr => by simp [rcomp, rcompInner_chainToks c cs m g tr],
   fun _ l => collectSeq_eq l⟩

/-- C10: a single trailing comma after the tail (after the mapper, or after
the guard when one is present) is accepted, and the expansion is identical
to the one without the trailing comma — for every clause chain, with and
without a collection type. -/
theorem claim_C10_trailing_comma :
    (∀ (c : ClauseT) (cs : List ClauseT) (m : Nat) (g : Option Nat),
        rcomp (Tok.kwFor :: chainToks c cs m g true)
          = rcomp (Tok.kwFor :: chainToks c cs m g false)
        ∧ (rcomp (Tok.kwFor :: chainToks c cs m g true)).isSome)
    ∧ (∀ (T : Nat) (c : ClauseT) (cs : List ClauseT) (m : Nat)
        (g : Option Nat),
        rcomp (Tok.path T :: Tok.semi :: Tok.kwFor :: chainToks c cs m g true)
          = rcomp (Tok.path T :: Tok.semi :: Tok.kwFor ::
              chainToks c cs m g false)) :=
  ⟨fun c cs m g => by
      constructor
      · simp [rcomp, rcompInner_chainToks c cs m g true,
          rcompInner_chainToks c cs m g false]
      · simp [rcomp, rcompInner_chainToks c cs m g true],
   fun T c cs m g => by
      simp [rcomp, rcompInner_chainToks c cs m g true,
        rcompInner_chainToks c cs m g false]⟩

end Rustcomp

